import Mathlib

/-!
# Verification of the chess64 search-and-strength core

Shallow embedding of the move-selection core of `script_Version3.js`:
the material evaluator (`evaluateBoard`, `pieceValue`), the strength model
(`eloToParams`), the capture-first move ordering, the negamax search with
alpha-beta pruning (`negamax`), the top-level move selection
(`getBestMove`) and the blunder branch of `makeAIMove`.

The rules engine (chess.js) is an external collaborator: a position is
modelled by the predicates and board contents the core reads from it, and
the game seen by the search is modelled as a finite game tree whose nodes
carry such a position and whose edges carry SAN move strings.

JS numbers appearing in the search are integers plus the two infinities
used as sentinels, modelled by `EInt`.  JS `Array.prototype.sort` is
stable (ES2019), so the comparator sorts are modelled by the stable
`List.insertionSort` on the comparator's preorder.
-/

namespace Chess64

/-- The two sides, as chess.js color chars `'w'` / `'b'`. -/
inductive Color where
  | w
  | b
deriving DecidableEq, Repr

/-- `switchColor` from the source: flips `'w'` and `'b'`. -/
def switchColor (c : Color) : Color :=
  match c with
  | .w => .b
  | .b => .w

/-- A piece as returned by `chess.board()`: an owner color and a type
string (chess.js uses `"p" "n" "b" "r" "q" "k"`, but the code guards
against other strings with `|| 0`). -/
structure Piece where
  color : Color
  ptype : String
deriving DecidableEq, Repr

/-- A position as seen through the chess.js predicates the core reads:
the side to move, the terminal-detection predicates consumed by
`evaluateBoard`, the `game_over()` predicate consumed by the search, and
the 8x8 board contents (row-major, as `chess.board()` returns it). -/
structure Pos where
  turn : Color
  inCheckmate : Bool
  inStalemate : Bool
  inDraw : Bool
  inThreefold : Bool
  gameOver : Bool
  board : List (List (Option Piece))
deriving DecidableEq, Repr

/-- The `pieceValue` lookup table from the source; `none` models a failed
JS property lookup (`undefined`). -/
def pieceValue (t : String) : Option ℤ :=
  if t = "p" then some 100
  else if t = "n" then some 320
  else if t = "b" then some 330
  else if t = "r" then some 500
  else if t = "q" then some 900
  else if t = "k" then some 20000
  else none

/-- One square's contribution to the material sum:
`value += (piece.color === 'w') ? v : -v` with `v = pieceValue[piece.type] || 0`. -/
def squareVal (sq : Option Piece) : ℤ :=
  match sq with
  | none => 0
  | some pc =>
      if pc.color = Color.w then (pieceValue pc.ptype).getD 0
      else -((pieceValue pc.ptype).getD 0)

/-- The double loop `for r in 0..7, for f in 0..7` over `board[r][f]`;
out-of-range access is totalised with empty defaults (chess.js always
hands back an 8x8 array). -/
def boardValue (bd : List (List (Option Piece))) : ℤ :=
  ((List.range 8).map (fun r =>
    ((List.range 8).map (fun f => squareVal ((bd.getD r []).getD f none))).sum)).sum

/-- `evaluateBoard` from the source: checkmate first, then the drawish
predicates, else the material sum, from White's perspective. -/
def evaluateBoard (p : Pos) : ℤ :=
  if p.inCheckmate = true then
    (if p.turn = Color.w then -999999 else 999999)
  else if p.inDraw = true ∨ p.inStalemate = true ∨ p.inThreefold = true then 0
  else boardValue p.board

/-- The `{depth, randomness}` record produced by `eloToParams`
(the spec calls `randomness` the blunder probability). -/
structure StrengthParams where
  depth : ℕ
  randomness : ℚ
deriving DecidableEq, Repr

/-- `eloToParams` from the source.  The JS initialises
`depth = 2, randomness = 0.25` but the if/else chain is exhaustive, so
those initial values are always overwritten.  The float literals are
modelled as the exact rationals they denote in the source text. -/
def eloToParams (elo : ℤ) : StrengthParams :=
  if elo < 900 then ⟨1, 0.7⟩
  else if elo < 1100 then ⟨2, 0.5⟩
  else if elo < 1400 then ⟨2, 0.35⟩
  else if elo < 1700 then ⟨3, 0.2⟩
  else if elo < 2000 then ⟨4, 0.12⟩
  else if elo < 2300 then ⟨5, 0.06⟩
  else ⟨6, 0.02⟩

/-! ## Extended integers

JS numbers occurring in the search: integers plus `-Infinity` and
`Infinity` used as sentinels for `bestScore`, `max`, `alpha`, `beta`. -/

/-- An integer, or one of the two JS infinities. -/
inductive EInt where
  | negInf
  | fin (n : ℤ)
  | posInf
deriving DecidableEq, Repr

namespace EInt

/-- JS unary minus on these values. -/
def neg : EInt → EInt
  | negInf => posInf
  | fin n => fin (-n)
  | posInf => negInf

/-- JS `<` on these values. -/
def blt : EInt → EInt → Bool
  | negInf, negInf => false
  | negInf, _ => true
  | fin _, negInf => false
  | fin a, fin b => a < b
  | fin _, posInf => true
  | posInf, _ => false

/-- JS `<=` on these values. -/
def ble : EInt → EInt → Bool
  | negInf, _ => true
  | fin _, negInf => false
  | fin a, fin b => a ≤ b
  | fin _, posInf => true
  | posInf, posInf => true
  | posInf, _ => false

end EInt

/-! ## Stable comparator sorts

Both `sort` calls in the source use a JS comparator of the shape
`(a, b) => key(b) - key(a)` (descending by an integer key) on a stable
`Array.prototype.sort`.  A stable sort for the preorder
`key b ≤ key a` is `List.insertionSort` of that relation. -/

/-- Stable descending sort by an integer key; model of
`arr.sort((a, b) => key(b) - key(a))`. -/
def sortDescBy {α : Type} (key : α → ℤ) (l : List α) : List α :=
  List.insertionSort (fun a b => key b ≤ key a) l

/-! ## The game as the search sees it

The rules engine is external; what the search observes of it is: the
current position's predicates, the legal SAN move list, and the position
reached by each move.  That observable behaviour is a finitely-branching
game tree: each node carries a `Pos` and the list of legal moves paired
with the subtree each move leads to (`chess.moves()` order, which the
engine keeps deterministic). -/

/-- A game tree node: the position, and the legal moves with the
positions they lead to, in `chess.moves()` enumeration order. -/
inductive GTree where
  | node (pos : Pos) (children : List (String × GTree))

/-- The position at the root of a tree. -/
def GTree.pos : GTree → Pos
  | .node p _ => p

/-- The legal moves of the root with their subtrees. -/
def GTree.children : GTree → List (String × GTree)
  | .node _ cs => cs

/-- The legal SAN move list of the root (`chess.moves()`). -/
def GTree.moves (t : GTree) : List String := t.children.map (fun c => c.1)

/-- The capture key of the comparator
`(b.includes('x') ? 1 : 0) - (a.includes('x') ? 1 : 0)`. -/
def capFlag (m : String) : ℤ :=
  if m.contains 'x' then 1 else 0

/-- `orderMoves` from `getBestMove` (identical comparator to the sort in
`negamax`): stable sort of the SAN list, captures first. -/
def orderMoves (ms : List String) : List String :=
  sortDescBy capFlag ms

/-- The same sort applied in the tree model: each move keeps the subtree
it leads to while the list is reordered. -/
def sortChildren (cs : List (String × GTree)) : List (String × GTree) :=
  sortDescBy (fun c => capFlag c.1) cs

/-- The base-case value of `negamax`:
`perspectiveColor === 'w' ? evalScore : -evalScore`. -/
def evalPersp (t : GTree) (p : Color) : EInt :=
  if p = Color.w then .fin (evaluateBoard t.pos) else .fin (-(evaluateBoard t.pos))

/-- The `for` loop of `negamax`: running maximum `mx` (JS `max`),
window `alpha, beta`, beta-cutoff `break`.  The recursive call at
depth `depth - 1` is the function argument `f`; the source passes
`perspectiveColor` unchanged to it. -/
def negamaxLoop (f : GTree → EInt → EInt → Color → EInt) :
    List (String × GTree) → EInt → EInt → EInt → Color → EInt
  | [], _, _, mx, _ => mx
  | c :: rest, alpha, beta, mx, p =>
      let score := (f c.2 beta.neg alpha.neg p).neg
      let mx2 := if mx.blt score then score else mx
      let alpha2 := if alpha.blt mx2 then mx2 else alpha
      if beta.ble alpha2 then mx2 else negamaxLoop f rest alpha2 beta mx2 p

/-- `negamax` from the source, by recursion on the depth.  The JS guard
`depth === 0 || chess.game_over()` is split on the depth: at depth `0`
the base case fires unconditionally, at `d + 1` exactly when
`game_over()` holds. -/
def negamax : ℕ → GTree → EInt → EInt → Color → EInt
  | 0, t, _, _, p => evalPersp t p
  | d + 1, t, alpha, beta, p =>
      if t.pos.gameOver = true then evalPersp t p
      else negamaxLoop (negamax d) (sortChildren t.children) alpha beta .negInf p

/-- Modelled from the spec (§8, alpha-beta equivalence): the loop of an
unpruned full-width negamax — same running maximum, no window, no
cutoff. -/
def fullLoop (f : GTree → Color → EInt) :
    List (String × GTree) → EInt → Color → EInt
  | [], mx, _ => mx
  | c :: rest, mx, p =>
      let score := (f c.2 p).neg
      fullLoop f rest (if mx.blt score then score else mx) p

/-- Modelled from the spec (§8, alpha-beta equivalence): the unpruned
full-width negamax over the same tree, the same leaf evaluation and the
same move ordering as `negamax`, differing only in that no branch is
pruned. -/
def negamaxFull : ℕ → GTree → Color → EInt
  | 0, t, p => evalPersp t p
  | d + 1, t, p =>
      if t.pos.gameOver = true then evalPersp t p
      else fullLoop (negamaxFull d) (sortChildren t.children) .negInf p

/-- Modelled from the spec (§4.3, recursive case): the search the spec
describes, identical to `negamax` except that the recursive call is made
with the opposite perspective (`switchColor`), so the perspective
alternates between the levels. -/
def negamaxAltLoop (f : GTree → EInt → EInt → Color → EInt) :
    List (String × GTree) → EInt → EInt → EInt → Color → EInt
  | [], _, _, mx, _ => mx
  | c :: rest, alpha, beta, mx, p =>
      let score := (f c.2 beta.neg alpha.neg (switchColor p)).neg
      let mx2 := if mx.blt score then score else mx
      let alpha2 := if alpha.blt mx2 then mx2 else alpha
      if beta.ble alpha2 then mx2 else negamaxAltLoop f rest alpha2 beta mx2 p

/-- Modelled from the spec (§4.3): `negamax` as the spec states it, with
the perspective switched at each recursive call. -/
def negamaxAlt : ℕ → GTree → EInt → EInt → Color → EInt
  | 0, t, _, _, p => evalPersp t p
  | d + 1, t, alpha, beta, p =>
      if t.pos.gameOver = true then evalPersp t p
      else negamaxAltLoop (negamaxAlt d) (sortChildren t.children) alpha beta .negInf p

/-! ## The mutable position object

`chess.move(m)` mutates the shared position object and pushes the old
position on the engine's undo stack; `chess.undo()` pops it.  The
observable state of that object is the current position (a subtree of
the game tree) together with the undo stack. -/

/-- The mutable chess object: current position and undo stack. -/
structure ChessSt where
  cur : GTree
  stack : List GTree

/-- `chess.move(m)` during search: step to the position the move leads
to, pushing the previous position on the undo stack. -/
def applyMove (st : ChessSt) (c : GTree) : ChessSt :=
  ⟨c, st.cur :: st.stack⟩

/-- `chess.undo()`: pop the undo stack (chess.js leaves the state alone
when the stack is empty). -/
def undoMove (st : ChessSt) : ChessSt :=
  match st.stack with
  | [] => st
  | h :: tl => ⟨h, tl⟩

/-- The `for` loop of `negamax` with the mutation threaded explicitly:
`chess.move`, recursive call, `chess.undo`, in source order; the
beta-cutoff `break` happens after the `undo`. -/
def negamaxLoopS (f : ChessSt → EInt → EInt → Color → EInt × ChessSt) :
    List (String × GTree) → ChessSt → EInt → EInt → EInt → Color → EInt × ChessSt
  | [], st, _, _, mx, _ => (mx, st)
  | c :: rest, st, alpha, beta, mx, p =>
      let st1 := applyMove st c.2
      let r := f st1 beta.neg alpha.neg p
      let st2 := undoMove r.2
      let score := r.1.neg
      let mx2 := if mx.blt score then score else mx
      let alpha2 := if alpha.blt mx2 then mx2 else alpha
      if beta.ble alpha2 then (mx2, st2) else negamaxLoopS f rest st2 alpha2 beta mx2 p

/-- `negamax` with the mutation of the shared position threaded
explicitly; returns the score and the final state of the object. -/
def negamaxS : ℕ → ChessSt → EInt → EInt → Color → EInt × ChessSt
  | 0, st, _, _, p => (evalPersp st.cur p, st)
  | d + 1, st, alpha, beta, p =>
      if st.cur.pos.gameOver = true then (evalPersp st.cur p, st)
      else negamaxLoopS (negamaxS d) (sortChildren st.cur.children) st alpha beta .negInf p

/-- The `for` loop of `getBestMove`: apply, full-window `negamax` at
`maxDepth - 1` from the switched color, undo, keep the strictly best
score (`score > bestScore`), first maximal move wins. -/
def bestLoopS : List (String × GTree) → ChessSt → ℕ → Color →
    Option String → EInt → (Option String × EInt) × ChessSt
  | [], st, _, _, bm, bs => ((bm, bs), st)
  | c :: rest, st, d, ai, bm, bs =>
      let st1 := applyMove st c.2
      let r := negamaxS (d - 1) st1 .negInf .posInf (switchColor ai)
      let st2 := undoMove r.2
      let score := r.1.neg
      if bs.blt score then bestLoopS rest st2 d ai (some c.1) score
      else bestLoopS rest st2 d ai bm bs

/-- `getBestMove` from the source: `null` (here `none`) when there is no
legal move, else the record `{move, score}` — where `move` is still JS
`null` if no score ever exceeded `-Infinity`.  Returns the result
together with the final state of the shared position object. -/
def getBestMoveS (st : ChessSt) (maxDepth : ℕ) (aiColor : Color) :
    Option (Option String × EInt) × ChessSt :=
  match st.cur.children with
  | [] => (none, st)
  | _ :: _ =>
      let r := bestLoopS (sortChildren st.cur.children) st maxDepth aiColor none .negInf
      (some r.1, r.2)

/-! ## The blunder branch of `makeAIMove` -/

/-- The shallow score of one candidate move in the blunder branch:
`evaluateBoard(game) * (perspective === 'w' ? 1 : -1)` on the position
after the move (the move is applied, evaluated once, and undone). -/
def shallowScore (t : GTree) (p : Color) : ℤ :=
  evaluateBoard t.pos * (if p = Color.w then 1 else -1)

/-- The `scored` array of the blunder branch: every legal move with its
shallow score, in `chess.moves()` order. -/
def blunderScored (t : GTree) (p : Color) : List (String × ℤ) :=
  t.children.map (fun c => (c.1, shallowScore c.2 p))

/-- `scored.sort((a, b) => b.score - a.score)`: stable descending sort
by the shallow score. -/
def blunderSorted (t : GTree) (p : Color) : List (String × ℤ) :=
  sortDescBy (fun q => q.2) (blunderScored t p)

/-- The pick of the blunder branch.  The random draw
`Math.floor(Math.random() * Math.min(k, scored.length))` with
`k = Math.min(4, moves.length)` is an index `i < min 4 count`; the move
played is `scored[i].move` of the sorted array. -/
def blunderPick (t : GTree) (p : Color) (i : ℕ) : Option String :=
  ((blunderSorted t p).get? i).map (fun q => q.1)

/-! ## Spec-side comparison definitions and concrete inputs -/

/-- Modelled from the spec (§4.1): the fixed material table the claim
states — pawn 100, knight 320, bishop 330, rook 500, queen 900,
king 20000 (other strings never occur on a rules-engine board; they get
0, cf. the separate totality claim). -/
def specPieceValue (t : String) : ℤ :=
  if t = "p" then 100
  else if t = "n" then 320
  else if t = "b" then 330
  else if t = "r" then 500
  else if t = "q" then 900
  else if t = "k" then 20000
  else 0

/-- Modelled from the spec (§4.1): one square's material value, added if
White-owned, subtracted if Black-owned. -/
def specSquareValue (sq : Option Piece) : ℤ :=
  match sq with
  | none => 0
  | some pc =>
      if pc.color = Color.w then specPieceValue pc.ptype else -(specPieceValue pc.ptype)

/-- Modelled from the spec (§4.1): the sum, over every piece on the
board, of its fixed material value. -/
def specMaterial (bd : List (List (Option Piece))) : ℤ :=
  (bd.map (fun row => (row.map specSquareValue).sum)).sum

mutual
/-- The rules-engine terminality precondition: every reachable position
with no legal move is reported game-over (`isTerminal` true whenever the
legal-move list is empty). -/
def WF : GTree → Bool
  | .node p cs => ((!cs.isEmpty) || p.gameOver) && wfAll cs

/-- `WF` at every subtree of a child list. -/
def wfAll : List (String × GTree) → Bool
  | [] => true
  | c :: rest => WF c.2 && wfAll rest
end

/-- A non-terminal position with an empty board; every predicate false. -/
def posQuiet : Pos :=
  ⟨Color.w, false, false, false, false, false, []⟩

/-- A non-terminal position whose board holds exactly one white pawn, so
`evaluateBoard` returns `100`. -/
def posPawn : Pos :=
  ⟨Color.b, false, false, false, false, false, [[some ⟨Color.w, "p"⟩]]⟩

/-- A game-over position (stalemate) with no legal moves. -/
def posOver : Pos :=
  ⟨Color.w, false, true, false, false, true, []⟩

/-- Concrete input for the perspective claim: one legal move, leading to
a quiet position of material `+100`. -/
def exTreeC1 : GTree :=
  .node posQuiet [("a4", .node posPawn [])]

/-- A small well-formed game tree: two legal moves, each leading to a
terminal position, of material `+100` and `0`. -/
def exTreeWF : GTree :=
  .node posQuiet
    [("a4", .node ⟨Color.b, false, true, false, false, true, [[some ⟨Color.w, "p"⟩]]⟩ []),
     ("h4", .node posOver [])]

/-- An 8x8 board holding exactly one white pawn. -/
def exBoard : List (List (Option Piece)) :=
  [some ⟨Color.w, "p"⟩, none, none, none, none, none, none, none] ::
    List.replicate 7 (List.replicate 8 none)

/-- A quiet position on `exBoard`. -/
def posMat : Pos :=
  ⟨Color.w, false, false, false, false, false, exBoard⟩

/-! # Theorems

Helper lemmas first (the `EInt` order toolkit and the stable-sort
characterisation), then the claims. -/

namespace EInt

theorem neg_neg (a : EInt) : a.neg.neg = a := by
  cases a <;> simp [neg]

theorem ble_refl (a : EInt) : a.ble a = true := by
  cases a <;> simp [ble]

theorem ble_trans {a b c : EInt} (h₁ : a.ble b = true) (h₂ : b.ble c = true) :
    a.ble c = true := by
  cases a <;> cases b <;> cases c <;> simp_all [ble] <;> omega

theorem blt_of_blt_of_ble {a b c : EInt} (h₁ : a.blt b = true) (h₂ : b.ble c = true) :
    a.blt c = true := by
  cases a <;> cases b <;> cases c <;> simp_all [blt, ble] <;> omega

theorem blt_of_ble_of_blt {a b c : EInt} (h₁ : a.ble b = true) (h₂ : b.blt c = true) :
    a.blt c = true := by
  cases a <;> cases b <;> cases c <;> simp_all [blt, ble] <;> omega

theorem ble_of_blt {a b : EInt} (h : a.blt b = true) : a.ble b = true := by
  cases a <;> cases b <;> simp_all [blt, ble] <;> omega

theorem ble_of_not_blt {a b : EInt} (h : ¬ a.blt b = true) : b.ble a = true := by
  cases a <;> cases b <;> simp_all [blt, ble] <;> omega

theorem not_ble_of_blt {a b : EInt} (h : a.blt b = true) : ¬ b.ble a = true := by
  cases a <;> cases b <;> simp_all [blt, ble] <;> omega

theorem blt_of_not_ble {a b : EInt} (h : ¬ a.ble b = true) : b.blt a = true := by
  cases a <;> cases b <;> simp_all [blt, ble] <;> omega

theorem ble_antisymm {a b : EInt} (h₁ : a.ble b = true) (h₂ : b.ble a = true) : a = b := by
  cases a <;> cases b <;> simp_all [ble] <;> omega

theorem neg_ble_neg {a b : EInt} : a.neg.ble b.neg = b.ble a := by
  cases a <;> cases b <;> simp [neg, ble] <;> omega

theorem neg_blt_neg {a b : EInt} : a.neg.blt b.neg = b.blt a := by
  cases a <;> cases b <;> simp [neg, blt] <;> omega

theorem ble_negInf {a : EInt} (h : a.ble negInf = true) : a = negInf := by
  cases a <;> simp_all [ble]

theorem posInf_ble {a : EInt} (h : (posInf).ble a = true) : a = posInf := by
  cases a <;> simp_all [ble]

theorem negInf_ble (a : EInt) : (negInf).ble a = true := by
  cases a <;> simp [ble]

theorem ble_posInf (a : EInt) : a.ble posInf = true := by
  cases a <;> simp [ble]

theorem ble_neg (a b : EInt) : a.ble b.neg = b.ble a.neg := by
  cases a <;> cases b <;> simp [ble, neg] <;> omega

theorem neg_ble (a b : EInt) : a.neg.ble b = b.neg.ble a := by
  cases a <;> cases b <;> simp [ble, neg] <;> omega

theorem blt_neg (a b : EInt) : a.blt b.neg = b.blt a.neg := by
  cases a <;> cases b <;> simp [blt, neg] <;> omega

theorem neg_blt (a b : EInt) : a.neg.blt b = b.neg.blt a := by
  cases a <;> cases b <;> simp [blt, neg] <;> omega

theorem blt_eq_false_of_ble {a b : EInt} (h : a.ble b = true) : b.blt a = false := by
  cases a <;> cases b <;> simp_all [blt, ble] <;> omega

theorem blt_or_ble (a b : EInt) : a.blt b = true ∨ b.ble a = true := by
  cases a <;> cases b <;> simp [blt, ble] <;> omega

end EInt

theorem sortDescBy_perm {α : Type} (key : α → ℤ) (l : List α) :
    (sortDescBy key l).Perm l :=
  List.perm_insertionSort _ l

theorem sortDescBy_sorted {α : Type} (key : α → ℤ) (l : List α) :
    List.Sorted (fun a b => key b ≤ key a) (sortDescBy key l) := by
  haveI : IsTotal α (fun a b => key b ≤ key a) := ⟨fun a b => le_total (key b) (key a)⟩
  haveI : IsTrans α (fun a b => key b ≤ key a) := ⟨fun _ _ _ h₁ h₂ => le_trans h₂ h₁⟩
  exact List.sorted_insertionSort _ l

theorem orderedInsert_of_forall {α : Type} (r : α → α → Prop) [DecidableRel r]
    (a : α) (L : List α) (h : ∀ y ∈ L, r a y) :
    L.orderedInsert r a = a :: L := by
  cases L with
  | nil => rfl
  | cons y L' =>
      simp only [List.orderedInsert, if_pos (h y (by simp))]

theorem orderedInsert_append_not {α : Type} (r : α → α → Prop) [DecidableRel r]
    (a : α) (C N : List α) (hC : ∀ y ∈ C, ¬ r a y) :
    (C ++ N).orderedInsert r a = C ++ N.orderedInsert r a := by
  induction C with
  | nil => simp
  | cons c C' ih =>
      have hc : ¬ r a c := hC c (by simp)
      simp only [List.cons_append, List.orderedInsert, if_neg hc, List.append_eq]
      rw [ih (fun y hy => hC y (by simp [hy]))]

/-- A stable descending sort on a 0/1 key is the stable partition:
all key-1 elements first, in input order, then the key-0 elements, in
input order. -/
theorem sortDescBy_binary {α : Type} (p : α → Bool) (l : List α) :
    sortDescBy (fun x => if p x then (1 : ℤ) else 0) l
      = l.filter p ++ l.filter (fun x => !(p x)) := by
  induction l with
  | nil => rfl
  | cons a l ih =>
      show List.orderedInsert _ a (sortDescBy _ l) = _
      rw [ih]
      by_cases hpa : p a = true
      · rw [orderedInsert_of_forall _ a _ (by
          intro y _
          simp only [hpa, if_pos]
          split <;> omega)]
        simp [List.filter_cons, hpa]
      · have hpa' : p a = false := by simpa using hpa
        rw [orderedInsert_append_not _ a _ _ (by
          intro y hy
          have : p y = true := (List.mem_filter.mp hy).2
          simp only [this, if_pos, hpa', if_neg Bool.false_ne_true]
          omega)]
        rw [orderedInsert_of_forall _ a _ (by
          intro y hy
          have hb : (!(p y)) = true := (List.mem_filter.mp hy).2
          have hy' : p y = false := by simpa using hb
          simp only [hy', hpa', if_neg Bool.false_ne_true]
          omega)]
        simp [List.filter_cons, hpa']


/-! ## The strength model (C4) -/

set_option maxHeartbeats 1600000 in
/-- C4: `eloToParams` is total and deterministic over all integers, with
exactly the seven bands of the claim (lower bound inclusive, upper bound
exclusive), and along increasing elo the depth is non-decreasing and the
blunder probability non-increasing. -/
theorem eloToParams_bands_monotone (e : ℤ) :
    (e < 900 → eloToParams e = ⟨1, 0.7⟩) ∧
    (900 ≤ e ∧ e < 1100 → eloToParams e = ⟨2, 0.5⟩) ∧
    (1100 ≤ e ∧ e < 1400 → eloToParams e = ⟨2, 0.35⟩) ∧
    (1400 ≤ e ∧ e < 1700 → eloToParams e = ⟨3, 0.2⟩) ∧
    (1700 ≤ e ∧ e < 2000 → eloToParams e = ⟨4, 0.12⟩) ∧
    (2000 ≤ e ∧ e < 2300 → eloToParams e = ⟨5, 0.06⟩) ∧
    (2300 ≤ e → eloToParams e = ⟨6, 0.02⟩) ∧
    (∀ e2 : ℤ, e ≤ e2 →
      (eloToParams e).depth ≤ (eloToParams e2).depth ∧
      (eloToParams e2).randomness ≤ (eloToParams e).randomness) := by
  refine ⟨?_, ?_, ?_, ?_, ?_, ?_, ?_, ?_⟩
  · intro h; unfold eloToParams; split_ifs <;> first | rfl | omega
  · intro h; unfold eloToParams; split_ifs <;> first | rfl | omega
  · intro h; unfold eloToParams; split_ifs <;> first | rfl | omega
  · intro h; unfold eloToParams; split_ifs <;> first | rfl | omega
  · intro h; unfold eloToParams; split_ifs <;> first | rfl | omega
  · intro h; unfold eloToParams; split_ifs <;> first | rfl | omega
  · intro h; unfold eloToParams; split_ifs <;> first | rfl | omega
  · intro e2 h12
    unfold eloToParams
    split_ifs <;> first | (exfalso; omega) | (exact ⟨by norm_num, by norm_num⟩)

/-- Instantiation of the band theorem at the claim's sample points:
elo 500 gives depth 1 and blunder probability 0.70, elo 2500 gives
depth 6 and blunder probability 0.02, and the monotonicity holds between
them. -/
theorem eloToParams_witness :
    eloToParams 500 = ⟨1, 0.7⟩ ∧ eloToParams 2500 = ⟨6, 0.02⟩ ∧
    (eloToParams 500).depth ≤ (eloToParams 2500).depth ∧
    (eloToParams 2500).randomness ≤ (eloToParams 500).randomness := by
  refine ⟨(eloToParams_bands_monotone 500).1 (by norm_num),
    (eloToParams_bands_monotone 2500).2.2.2.2.2.2.1 (by norm_num),
    ((eloToParams_bands_monotone 500).2.2.2.2.2.2.2 2500 (by norm_num)).1,
    ((eloToParams_bands_monotone 500).2.2.2.2.2.2.2 2500 (by norm_num)).2⟩

/-! ## Evaluator totality over unknown piece types (C10) -/

/-- C10: a piece whose type string is not one of the six known types has
no entry in `pieceValue` (the JS lookup yields `undefined`), and the
`|| 0` guard makes its contribution to the material sum exactly 0; the
summing branch is total. -/
theorem squareVal_unknown_type (pc : Piece)
    (h : pc.ptype ∉ (["p", "n", "b", "r", "q", "k"] : List String)) :
    pieceValue pc.ptype = none ∧ squareVal (some pc) = 0 := by
  simp only [List.mem_cons, List.not_mem_nil, or_false, not_or] at h
  obtain ⟨h1, h2, h3, h4, h5, h6⟩ := h
  have hv : pieceValue pc.ptype = none := by
    unfold pieceValue
    split_ifs <;> simp_all
  refine ⟨hv, ?_⟩
  show (if pc.color = Color.w then (pieceValue pc.ptype).getD 0
    else -((pieceValue pc.ptype).getD 0)) = 0
  rw [hv]
  split <;> rfl

/-- The totality theorem applied to a concrete junk piece type. -/
theorem squareVal_unknown_type_witness :
    pieceValue "z" = none ∧ squareVal (some ⟨Color.w, "z"⟩) = 0 :=
  squareVal_unknown_type ⟨Color.w, "z"⟩ (by decide)

/-! ## The move orderer (C8) -/

/-- C8: the move orderer returns a permutation of its input in which
every move containing the capture marker precedes every move without
one, and each of the two partitions keeps its input order (the output is
exactly captures-in-order followed by non-captures-in-order). -/
theorem orderMoves_stable_partition (ms : List String) :
    (orderMoves ms).Perm ms ∧
    orderMoves ms
      = ms.filter (fun m => m.contains 'x')
          ++ ms.filter (fun m => !(m.contains 'x')) := by
  refine ⟨sortDescBy_perm _ ms, ?_⟩
  show sortDescBy capFlag ms = _
  exact sortDescBy_binary (fun m => m.contains 'x') ms

/-! ## The empty-move non-terminal case (C9) -/

/-- C9: called with positive depth on a position not reported game-over
whose legal-move list is empty, `negamax` runs no loop iteration and
returns `-Infinity` (the initial running maximum), which the parent's
sign flip turns into `+Infinity`. -/
theorem negamax_no_moves (d : ℕ) (t : GTree) (alpha beta : EInt) (p : Color)
    (hd : 0 < d) (hover : t.pos.gameOver = false) (hmv : t.children = []) :
    negamax d t alpha beta p = .negInf ∧ (negamax d t alpha beta p).neg = .posInf := by
  cases d with
  | zero => omega
  | succ d =>
      have : negamax (d + 1) t alpha beta p = .negInf := by
        unfold negamax
        rw [hover, hmv]
        rfl
      exact ⟨this, by rw [this]; rfl⟩

/-- The empty-move theorem applied to a concrete non-terminal leafless
position at depth 3. -/
theorem negamax_no_moves_witness :
    negamax 3 (.node posQuiet []) .negInf .posInf Color.w = .negInf ∧
    (negamax 3 (.node posQuiet []) .negInf .posInf Color.w).neg = .posInf :=
  negamax_no_moves 3 (.node posQuiet []) .negInf .posInf Color.w (by omega) rfl rfl

/-! ## The perspective of the recursion (C1) -/

/-- C1, divergence of the code from the claim: the source's recursive
call passes `perspectiveColor` unchanged, so the perspective does not
alternate.  On a one-move tree whose successor has material +100, the
code returns `-100` from White's perspective at depth 1, while the
recursion the claim describes (opposite perspective at each level,
`negamaxAlt`) returns `+100`. -/
theorem negamax_perspective_divergence :
    negamax 1 exTreeC1 .negInf .posInf Color.w = .fin (-100) ∧
    negamaxAlt 1 exTreeC1 .negInf .posInf Color.w = .fin 100 ∧
    evaluateBoard posPawn = 100 := by
  refine ⟨?_, ?_, ?_⟩ <;> rfl

/-! ## The evaluator (C3) -/

theorem range_getD_map_sum {α : Type} (f : α → ℤ) (d : α) (l : List α) :
    ((List.range l.length).map (fun i => f (l.getD i d))).sum = (l.map f).sum := by
  induction l with
  | nil => rfl
  | cons a l ih =>
      rw [List.length_cons, List.range_succ_eq_map]
      simp only [List.map_cons, List.map_map, List.sum_cons]
      show f a + ((List.range l.length).map (fun i => f (l.getD i d))).sum
        = f a + (l.map f).sum
      rw [ih]

theorem pieceValue_getD (t : String) : (pieceValue t).getD 0 = specPieceValue t := by
  unfold pieceValue specPieceValue
  split_ifs <;> rfl

theorem squareVal_eq_spec (sq : Option Piece) : squareVal sq = specSquareValue sq := by
  cases sq with
  | none => rfl
  | some pc =>
      show (if pc.color = Color.w then (pieceValue pc.ptype).getD 0
        else -((pieceValue pc.ptype).getD 0))
        = (if pc.color = Color.w then specPieceValue pc.ptype
            else -(specPieceValue pc.ptype))
      rw [pieceValue_getD]

theorem range8_getD_map_sum {α : Type} (g : α → ℤ) (d : α) (l : List α)
    (h8 : l.length = 8) :
    ((List.range 8).map (fun i => g (l.getD i d))).sum = (l.map g).sum := by
  conv_lhs => rw [← h8]
  exact range_getD_map_sum g d l

/-- On an 8x8 board the code's fixed-range double loop computes the
spec's sum over every piece of the board. -/
theorem boardValue_eq_specMaterial (bd : List (List (Option Piece)))
    (h8 : bd.length = 8) (hrow : ∀ row ∈ bd, row.length = 8) :
    boardValue bd = specMaterial bd := by
  unfold boardValue specMaterial
  rw [range8_getD_map_sum (fun row =>
    ((List.range 8).map (fun f => squareVal (row.getD f none))).sum) [] bd h8]
  congr 1
  apply List.map_congr_left
  intro row hmem
  rw [range8_getD_map_sum squareVal none row (hrow row hmem)]
  congr 1
  apply List.map_congr_left
  intro sq _
  exact squareVal_eq_spec sq

/-- C3: `evaluateBoard` returns `+999999` on a checkmate with Black to
move, `-999999` on a checkmate with White to move, `0` on a drawn,
stalemated or threefold-repeated position, and otherwise the sum over
all pieces of the 8x8 board of the fixed material values, added for
White-owned and subtracted for Black-owned pieces. -/
theorem evaluateBoard_cases (p : Pos) :
    (p.inCheckmate = true → p.turn = Color.b → evaluateBoard p = 999999) ∧
    (p.inCheckmate = true → p.turn = Color.w → evaluateBoard p = -999999) ∧
    (p.inCheckmate = false →
      (p.inDraw = true ∨ p.inStalemate = true ∨ p.inThreefold = true) →
      evaluateBoard p = 0) ∧
    (p.inCheckmate = false → p.inDraw = false → p.inStalemate = false →
      p.inThreefold = false → p.board.length = 8 → (∀ row ∈ p.board, row.length = 8) →
      evaluateBoard p = specMaterial p.board) := by
  refine ⟨?_, ?_, ?_, ?_⟩
  · intro hc ht
    unfold evaluateBoard
    rw [hc, ht]
    rfl
  · intro hc ht
    unfold evaluateBoard
    rw [hc, ht]
    rfl
  · intro hc hdr
    unfold evaluateBoard
    rw [hc]
    simp [hdr]
  · intro hc hd hs h3 h8 hrow
    unfold evaluateBoard
    rw [hc, hd, hs, h3]
    simp only [Bool.false_eq_true, false_or, or_self, if_false]
    exact boardValue_eq_specMaterial p.board h8 hrow

/-- The evaluator theorem applied to a concrete quiet 8x8 position with
one white pawn: the code's loop agrees with the spec's material sum, and
both give 100. -/
theorem evaluateBoard_cases_witness :
    evaluateBoard posMat = specMaterial posMat.board ∧ specMaterial posMat.board = 100 :=
  ⟨(evaluateBoard_cases posMat).2.2.2 rfl rfl rfl rfl (by decide) (by decide),
   by decide⟩

/-! ## Apply/undo purity of the search (C5) -/

theorem undo_apply (st : ChessSt) (c : GTree) : undoMove (applyMove st c) = st := rfl

theorem applyMove_cur (st : ChessSt) (c : GTree) : (applyMove st c).cur = c := rfl

/-- The stateful search agrees with the pure tree recursion on the
score, and returns the shared position object exactly as it received
it (each `chess.move` is undone by the paired `chess.undo`). -/
theorem negamaxLoopS_pair
    (f : ChessSt → EInt → EInt → Color → EInt × ChessSt)
    (g : GTree → EInt → EInt → Color → EInt) (p : Color)
    (hf : ∀ (st : ChessSt) (alpha beta : EInt), f st alpha beta p = (g st.cur alpha beta p, st)) :
    ∀ (cs : List (String × GTree)) (st : ChessSt) (alpha beta mx : EInt),
      negamaxLoopS f cs st alpha beta mx p = (negamaxLoop g cs alpha beta mx p, st) := by
  intro cs
  induction cs with
  | nil => intro st alpha beta mx; rfl
  | cons c rest ih =>
      intro st alpha beta mx
      simp only [negamaxLoopS, negamaxLoop, hf, applyMove_cur, undo_apply]
      set s := (g c.2 beta.neg alpha.neg p).neg with hs
      set mx2 := if mx.blt s = true then s else mx with hmx2
      set alpha2 := if alpha.blt mx2 = true then mx2 else alpha with halpha2
      split
      · rfl
      · exact ih st alpha2 beta mx2

/-- `negamaxS` returns the pure `negamax` score of the current position
and leaves the position object exactly as it found it. -/
theorem negamaxS_pair : ∀ (d : ℕ) (st : ChessSt) (alpha beta : EInt) (p : Color),
    negamaxS d st alpha beta p = (negamax d st.cur alpha beta p, st) := by
  intro d
  induction d with
  | zero => intro st alpha beta p; rfl
  | succ d ih =>
      intro st alpha beta p
      unfold negamaxS negamax
      split
      · rfl
      · exact negamaxLoopS_pair (negamaxS d) (negamax d) p
          (fun st a b => ih st a b p) _ st alpha beta _

theorem bestLoopS_state : ∀ (cs : List (String × GTree)) (st : ChessSt) (d : ℕ)
    (ai : Color) (bm : Option String) (bs : EInt),
    (bestLoopS cs st d ai bm bs).2 = st := by
  intro cs
  induction cs with
  | nil => intro st d ai bm bs; rfl
  | cons c rest ih =>
      intro st d ai bm bs
      simp only [bestLoopS, negamaxS_pair, applyMove_cur, undo_apply]
      split
      · exact ih st d ai _ _
      · exact ih st d ai bm bs

/-- C5: after a call to the move-selection search — `getBestMove`
including the `negamax` recursion it performs — the input position is
unchanged: every exploratory `chess.move` is undone before control
returns past it, including on a beta-cutoff exit. -/
theorem search_preserves_position (st : ChessSt) (maxDepth : ℕ) (aiColor : Color) :
    (getBestMoveS st maxDepth aiColor).2 = st ∧
    (∀ (alpha beta : EInt) (p : Color), (negamaxS maxDepth st alpha beta p).2 = st) := by
  constructor
  · unfold getBestMoveS
    split
    · rfl
    · exact bestLoopS_state _ st maxDepth aiColor none .negInf
  · intro alpha beta p
    rw [negamaxS_pair]

/-! ## No-move handling of the move selector (C6) -/

theorem wfAll_mem : ∀ (cs : List (String × GTree)) (c : String × GTree),
    wfAll cs = true → c ∈ cs → WF c.2 = true := by
  intro cs
  induction cs with
  | nil => intro c _ hc; simp at hc
  | cons a rest ih =>
      intro c hall hc
      simp only [wfAll, Bool.and_eq_true] at hall
      rcases List.mem_cons.mp hc with rfl | hc'
      · exact hall.1
      · exact ih c hall.2 hc'

theorem WF_children {t : GTree} (h : WF t = true) : wfAll t.children = true := by
  cases t with
  | node p cs =>
      simp only [WF, Bool.and_eq_true] at h
      exact h.2

theorem sortChildren_perm (cs : List (String × GTree)) : (sortChildren cs).Perm cs :=
  sortDescBy_perm _ cs

theorem mem_of_mem_sortChildren {c : String × GTree} {cs : List (String × GTree)}
    (h : c ∈ sortChildren cs) : c ∈ cs :=
  ((sortChildren_perm cs).mem_iff).mp h

theorem sortChildren_ne_nil {cs : List (String × GTree)} (h : cs ≠ []) :
    sortChildren cs ≠ [] := by
  intro h0
  apply h
  have hl := (sortChildren_perm cs).length_eq
  rw [h0] at hl
  exact List.eq_nil_of_length_eq_zero hl.symm

/-- If every child score is finite, the loop's result is finite as soon
as the accumulator is finite or at least one child is processed. -/
theorem negamaxLoop_fin (f : GTree → EInt → EInt → Color → EInt) (p : Color) :
    ∀ (cs : List (String × GTree)),
      (∀ c ∈ cs, ∀ (alpha beta : EInt), ∃ n, f c.2 alpha beta p = .fin n) →
      ∀ (alpha beta mx : EInt), ((∃ n, mx = .fin n) ∨ (mx = .negInf ∧ cs ≠ [])) →
      ∃ n, negamaxLoop f cs alpha beta mx p = .fin n := by
  intro cs
  induction cs with
  | nil =>
      intro _ alpha beta mx hmx
      rcases hmx with ⟨n, rfl⟩ | ⟨_, hne⟩
      · exact ⟨n, rfl⟩
      · exact absurd rfl hne
  | cons c rest ih =>
      intro hf alpha beta mx hmx
      obtain ⟨n, hn⟩ := hf c (by simp) beta.neg alpha.neg
      simp only [negamaxLoop, hn]
      have hmx2 : ∃ m, (if mx.blt (EInt.fin n).neg then (EInt.fin n).neg else mx)
          = EInt.fin m := by
        rcases hmx with ⟨k, rfl⟩ | ⟨rfl, _⟩
        · split
          · exact ⟨-n, rfl⟩
          · exact ⟨k, rfl⟩
        · exact ⟨-n, rfl⟩
      obtain ⟨m, hm⟩ := hmx2
      rw [hm]
      split <;> split
      all_goals first
        | exact ⟨m, rfl⟩
        | exact ih (fun c hc => hf c (by simp [hc])) _ beta _ (Or.inl ⟨m, rfl⟩)

/-- Under the rules-engine terminality precondition every `negamax`
score is a finite integer. -/
theorem negamax_fin : ∀ (d : ℕ) (t : GTree) (alpha beta : EInt) (p : Color),
    WF t = true → ∃ n, negamax d t alpha beta p = .fin n := by
  intro d
  induction d with
  | zero =>
      intro t alpha beta p _
      unfold negamax evalPersp
      split <;> exact ⟨_, rfl⟩
  | succ d ih =>
      intro t alpha beta p hwf
      unfold negamax
      split
      · unfold evalPersp
        split <;> exact ⟨_, rfl⟩
      · rename_i hover
        cases t with
        | node pos cs =>
            have hcs : cs ≠ [] := by
              simp only [WF, Bool.and_eq_true, Bool.or_eq_true] at hwf
              rcases hwf.1 with hne | hgo
              · intro h0
                rw [h0] at hne
                simp at hne
              · exact absurd hgo hover
            apply negamaxLoop_fin (negamax d) p (sortChildren cs)
            · intro c hc alpha beta
              exact ih c.2 alpha beta p
                (wfAll_mem cs c (WF_children hwf) (mem_of_mem_sortChildren hc))
            · exact Or.inr ⟨rfl, sortChildren_ne_nil hcs⟩

/-- Once a best move is recorded the selection loop always reports some
move, drawn from the recorded one or the remaining candidates. -/
theorem bestLoopS_some : ∀ (cs : List (String × GTree)) (st : ChessSt) (d : ℕ)
    (ai : Color) (m0 : String) (bs : EInt),
    ∃ m s, (bestLoopS cs st d ai (some m0) bs).1 = (some m, s) ∧
      (m = m0 ∨ m ∈ cs.map (fun c => c.1)) := by
  intro cs
  induction cs with
  | nil => intro st d ai m0 bs; exact ⟨m0, bs, rfl, Or.inl rfl⟩
  | cons c rest ih =>
      intro st d ai m0 bs
      simp only [bestLoopS]
      split
      · obtain ⟨m, s, h1, h2⟩ := ih _ d ai c.1 _
        refine ⟨m, s, h1, Or.inr ?_⟩
        rcases h2 with rfl | h
        · simp
        · simp [h]
      · obtain ⟨m, s, h1, h2⟩ := ih _ d ai m0 _
        refine ⟨m, s, h1, ?_⟩
        rcases h2 with rfl | h
        · exact Or.inl rfl
        · exact Or.inr (by simp [h])

/-- C6: the top-level selection returns `none` exactly on positions with
no legal move — `none` without recursion when the move list is empty,
and, under the precondition that the rules engine reports game-over
whenever no legal move exists, an actual legal move otherwise. -/
theorem getBestMove_none_iff (st : ChessSt) (d : ℕ) (ai : Color) :
    (st.cur.children = [] → (getBestMoveS st d ai).1 = none) ∧
    (WF st.cur = true → st.cur.children ≠ [] →
      ∃ m s, (getBestMoveS st d ai).1 = some (some m, s) ∧ m ∈ st.cur.moves) := by
  constructor
  · intro h
    unfold getBestMoveS
    split
    · rfl
    · rename_i heq
      rw [h] at heq
      cases heq
  · intro hwf hne
    unfold getBestMoveS
    split
    · rename_i heq
      exact absurd heq hne
    · rename_i c0 cs0 heq
      cases hsc : sortChildren st.cur.children with
      | nil => exact absurd hsc (sortChildren_ne_nil hne)
      | cons c rest =>
          have hcmem : c ∈ st.cur.children :=
            mem_of_mem_sortChildren (by rw [hsc]; simp)
          obtain ⟨n, hn⟩ := negamax_fin (d - 1) c.2 .negInf .posInf (switchColor ai)
            (wfAll_mem _ c (WF_children hwf) hcmem)
          simp only [bestLoopS, negamaxS_pair, applyMove_cur, undo_apply]
          rw [hn]
          rw [if_pos (show (EInt.negInf).blt (EInt.fin n).neg = true from rfl)]
          obtain ⟨m, s, h1, h2⟩ := bestLoopS_some rest _ d ai c.1 (EInt.fin n).neg
          refine ⟨m, s, by rw [h1], ?_⟩
          have hmm : m ∈ (sortChildren st.cur.children).map (fun q => q.1) := by
            rw [hsc]
            rcases h2 with rfl | h
            · simp
            · simp [h]
          have hperm := (sortChildren_perm st.cur.children).map (fun q => q.1)
          exact hperm.mem_iff.mp hmm

/-- The no-move theorem applied to concrete inputs: a leafless position
gives `none`; a two-move well-formed position gives some legal move. -/
theorem getBestMove_none_iff_witness :
    (getBestMoveS ⟨.node posOver [], []⟩ 2 Color.w).1 = none ∧
    ∃ m s, (getBestMoveS ⟨exTreeWF, []⟩ 2 Color.w).1 = some (some m, s) ∧
      m ∈ exTreeWF.moves :=
  ⟨(getBestMove_none_iff ⟨.node posOver [], []⟩ 2 Color.w).1 rfl,
   (getBestMove_none_iff ⟨exTreeWF, []⟩ 2 Color.w).2
     (by simp [WF, wfAll, exTreeWF, posOver]) (List.cons_ne_nil _ _)⟩

/-! ## The blunder branch (C7) -/

/-- C7: whenever the blunder branch is taken, the move played is the
`i`-th entry (the random draw is uniform over `i < min 4 count`) of the
list of all legal moves shallow-scored — one `evaluate` per move on the
position it leads to, sign-adjusted to the AI color — and stably sorted
descending by that score; in particular fewer than `min 4 count` legal
moves have a strictly greater shallow score than the move played. -/
theorem blunder_pick_top (t : GTree) (p : Color) (i : ℕ)
    (hi : i < min 4 t.children.length) :
    ∃ m sc,
      blunderPick t p i = some m ∧
      (blunderSorted t p).get? i = some (m, sc) ∧
      (m, sc) ∈ blunderScored t p ∧
      (blunderScored t p).countP (fun z => decide (sc < z.2)) < min 4 t.children.length := by
  have hmin : min 4 t.children.length ≤ t.children.length := min_le_right _ _
  have hlen : (blunderSorted t p).length = t.children.length := by
    unfold blunderSorted
    rw [(sortDescBy_perm _ _).length_eq]
    simp [blunderScored]
  have hi' : i < (blunderSorted t p).length := by omega
  have hq' : (blunderSorted t p)[i]? = some ((blunderSorted t p)[i]) :=
    List.getElem?_eq_getElem hi'
  set q := (blunderSorted t p)[i] with hqdef
  have hq : (blunderSorted t p).get? i = some q := by
    rw [List.get?_eq_getElem?, hq']
  have hqtake : q ∈ (blunderSorted t p).take (i + 1) := by
    rw [List.take_succ, hq']
    simp
  refine ⟨q.1, q.2, ?_, ?_, ?_, ?_⟩
  · unfold blunderPick
    rw [hq]
    rfl
  · rw [hq]
  · exact ((sortDescBy_perm _ _).mem_iff).mp (List.get?_mem hq)
  · have hdrop0 : ((blunderSorted t p).drop (i + 1)).countP
        (fun z => decide (q.2 < z.2)) = 0 := by
      rw [List.countP_eq_zero]
      intro y hy
      have hr : y.2 ≤ q.2 :=
        (sortDescBy_sorted (fun z => z.2) (blunderScored t p)).rel_of_mem_take_of_mem_drop
          hqtake hy
      simp only [decide_eq_true_eq]
      omega
    have hsorted_le : (blunderSorted t p).countP (fun z => decide (q.2 < z.2)) ≤ i := by
      conv_lhs => rw [← List.take_append_drop (i + 1) (blunderSorted t p)]
      rw [List.countP_append, hdrop0, Nat.add_zero, List.take_succ, hq',
        List.countP_append]
      have h1 : ((some q).toList).countP (fun z => decide (q.2 < z.2)) = 0 := by
        simp
      rw [h1, Nat.add_zero]
      calc ((blunderSorted t p).take i).countP (fun z => decide (q.2 < z.2))
          ≤ ((blunderSorted t p).take i).length := List.countP_le_length _
        _ ≤ i := List.length_take_le i _
    have hcnt : (blunderScored t p).countP (fun z => decide (q.2 < z.2))
        = (blunderSorted t p).countP (fun z => decide (q.2 < z.2)) :=
      ((sortDescBy_perm (fun z : String × ℤ => z.2) (blunderScored t p)).countP_eq _).symm
    omega

/-- The blunder-branch theorem applied at a concrete position with two
legal moves and index 0. -/
theorem blunder_pick_top_witness :
    ∃ m sc,
      blunderPick exTreeWF Color.w 0 = some m ∧
      (blunderSorted exTreeWF Color.w).get? 0 = some (m, sc) ∧
      (m, sc) ∈ blunderScored exTreeWF Color.w ∧
      (blunderScored exTreeWF Color.w).countP (fun z => decide (sc < z.2))
        < min 4 exTreeWF.children.length :=
  blunder_pick_top exTreeWF Color.w 0 (by decide)

/-! ## Alpha-beta equivalence (C2)

The classical fail-soft alpha-beta invariant: inside any window
`alpha < beta` the pruning loop returns the unpruned value whenever that
value lies strictly inside the window, an upper bound on it when it
fails low, and a lower bound when it fails high.  At the full window
`(-Infinity, Infinity)` this collapses to equality. -/

theorem fullLoop_acc (fV : GTree → Color → EInt) (p : Color) :
    ∀ (cs : List (String × GTree)) (mx : EInt),
      mx.ble (fullLoop fV cs mx p) = true := by
  intro cs
  induction cs with
  | nil => intro mx; exact EInt.ble_refl mx
  | cons c rest ih =>
      intro mx
      simp only [fullLoop]
      refine EInt.ble_trans ?_ (ih _)
      split
      · exact EInt.ble_of_blt (by assumption)
      · exact EInt.ble_refl mx

theorem negamaxLoop_acc (fA : GTree → EInt → EInt → Color → EInt) (p : Color) :
    ∀ (cs : List (String × GTree)) (alpha beta mx : EInt),
      mx.ble (negamaxLoop fA cs alpha beta mx p) = true := by
  intro cs
  induction cs with
  | nil => intro alpha beta mx; exact EInt.ble_refl mx
  | cons c rest ih =>
      intro alpha beta mx
      simp only [negamaxLoop]
      set s := (fA c.2 beta.neg alpha.neg p).neg with hs
      set mx2 := if mx.blt s = true then s else mx with hmx2
      set alpha2 := if alpha.blt mx2 = true then mx2 else alpha with halpha2
      have hstep : mx.ble mx2 = true := by
        rw [hmx2]
        split
        · exact EInt.ble_of_blt (by assumption)
        · exact EInt.ble_refl mx
      split
      · exact hstep
      · exact EInt.ble_trans hstep (ih alpha2 beta mx2)

/-- The fail-soft window invariant for the loop: if every child call
satisfies the invariant at its own window, the loop satisfies it,
comparing against the unpruned loop run from a possibly smaller
accumulator. -/
theorem negamaxLoop_bounds
    (fA : GTree → EInt → EInt → Color → EInt) (fV : GTree → Color → EInt) (p : Color) :
    ∀ (cs : List (String × GTree)),
      (∀ c ∈ cs, ∀ (a b : EInt), a.blt b = true →
        ((fA c.2 a b p).ble a = true → (fV c.2 p).ble (fA c.2 a b p) = true) ∧
        (b.ble (fA c.2 a b p) = true → (fA c.2 a b p).ble (fV c.2 p) = true) ∧
        (a.blt (fA c.2 a b p) = true → (fA c.2 a b p).blt b = true →
          fA c.2 a b p = fV c.2 p)) →
      ∀ (alpha beta mxA mxF : EInt),
        alpha.blt beta = true → mxA.ble alpha = true → mxF.ble mxA = true →
        ((negamaxLoop fA cs alpha beta mxA p).ble alpha = true →
          (fullLoop fV cs mxF p).ble (negamaxLoop fA cs alpha beta mxA p) = true) ∧
        (beta.ble (negamaxLoop fA cs alpha beta mxA p) = true →
          (negamaxLoop fA cs alpha beta mxA p).ble (fullLoop fV cs mxF p) = true) ∧
        (alpha.blt (negamaxLoop fA cs alpha beta mxA p) = true →
          (negamaxLoop fA cs alpha beta mxA p).blt beta = true →
          negamaxLoop fA cs alpha beta mxA p = fullLoop fV cs mxF p) := by
  intro cs
  induction cs with
  | nil =>
      intro _ alpha beta mxA mxF hab hmxA hmxF
      refine ⟨fun _ => hmxF, ?_, ?_⟩
      · intro h
        exact absurd (EInt.ble_trans h hmxA) (EInt.not_ble_of_blt hab)
      · intro h _
        exact absurd hmxA (EInt.not_ble_of_blt h)
  | cons c rest ih =>
      intro hf alpha beta mxA mxF hab hmxA hmxF
      have hfr : ∀ c ∈ rest, ∀ (a b : EInt), a.blt b = true →
          ((fA c.2 a b p).ble a = true → (fV c.2 p).ble (fA c.2 a b p) = true) ∧
          (b.ble (fA c.2 a b p) = true → (fA c.2 a b p).ble (fV c.2 p) = true) ∧
          (a.blt (fA c.2 a b p) = true → (fA c.2 a b p).blt b = true →
            fA c.2 a b p = fV c.2 p) :=
        fun c hc => hf c (List.mem_cons_of_mem _ hc)
      have hcw : (beta.neg).blt (alpha.neg) = true := by
        rw [EInt.neg_blt_neg]
        exact hab
      have hfacts := hf c (List.mem_cons_self c rest) beta.neg alpha.neg hcw
      simp only [negamaxLoop, fullLoop]
      set child := fA c.2 beta.neg alpha.neg p with hchild
      set chV := fV c.2 p with hchV
      set s := child.neg with hs
      set sV := chV.neg with hsV
      set mx2 := if mxA.blt s = true then s else mxA with hmx2
      set alpha2 := if alpha.blt mx2 = true then mx2 else alpha with halpha2
      set mxF2 := if mxF.blt sV = true then sV else mxF with hmxF2
      have hF1 : beta.ble s = true → s.ble sV = true := by
        intro h
        rw [hs] at h
        rw [EInt.ble_neg] at h
        rw [hs, hsV, EInt.neg_ble_neg]
        exact hfacts.1 h
      have hF2 : s.ble alpha = true → sV.ble s = true := by
        intro h
        rw [hs] at h
        rw [EInt.neg_ble] at h
        rw [hs, hsV, EInt.neg_ble_neg]
        exact hfacts.2.1 h
      have hF3 : alpha.blt s = true → s.blt beta = true → s = sV := by
        intro h1 h2
        rw [hs] at h1
        rw [EInt.blt_neg] at h1
        rw [hs] at h2
        rw [EInt.neg_blt] at h2
        rw [hs, hsV, hfacts.2.2 h2 h1]
      have hmxAmx2 : mxA.ble mx2 = true := by
        by_cases hcond : mxA.blt s = true
        · rw [hmx2, if_pos hcond]
          exact EInt.ble_of_blt hcond
        · rw [hmx2, if_neg hcond]
          exact EInt.ble_refl mxA
      have hsmx2 : s.ble mx2 = true := by
        by_cases hcond : mxA.blt s = true
        · rw [hmx2, if_pos hcond]
          exact EInt.ble_refl s
        · rw [hmx2, if_neg hcond]
          exact EInt.ble_of_not_blt hcond
      have hmx2alpha2 : mx2.ble alpha2 = true := by
        by_cases hcond : alpha.blt mx2 = true
        · rw [halpha2, if_pos hcond]
          exact EInt.ble_refl mx2
        · rw [halpha2, if_neg hcond]
          exact EInt.ble_of_not_blt hcond
      have hsVmxF2 : sV.ble mxF2 = true := by
        by_cases hcond : mxF.blt sV = true
        · rw [hmxF2, if_pos hcond]
          exact EInt.ble_refl sV
        · rw [hmxF2, if_neg hcond]
          exact EInt.ble_of_not_blt hcond
      by_cases hbreak : beta.ble alpha2 = true
      · -- beta cutoff: the loop returns mx2, which must be s, with beta <= s
        rw [if_pos hbreak]
        have hbmx2 : beta.ble mx2 = true := by
          by_cases hcond : alpha.blt mx2 = true
          · rw [halpha2, if_pos hcond] at hbreak
            exact hbreak
          · rw [halpha2, if_neg hcond] at hbreak
            exact absurd hbreak (EInt.not_ble_of_blt hab)
        have hmx2s : mx2 = s := by
          by_cases hcond : mxA.blt s = true
          · rw [hmx2, if_pos hcond]
          · rw [hmx2, if_neg hcond] at hbmx2
            exact absurd (EInt.ble_trans hbmx2 hmxA) (EInt.not_ble_of_blt hab)
        have hbs : beta.ble s = true := hmx2s ▸ hbmx2
        have hssV : s.ble sV = true := hF1 hbs
        refine ⟨?_, ?_, ?_⟩
        · intro h
          rw [hmx2s] at h
          exact absurd (EInt.ble_trans hbs h) (EInt.not_ble_of_blt hab)
        · intro _
          rw [hmx2s]
          exact EInt.ble_trans (EInt.ble_trans hssV hsVmxF2) (fullLoop_acc fV p rest mxF2)
        · intro _ h2
          rw [hmx2s] at h2
          exact absurd hbs (EInt.not_ble_of_blt h2)
      · -- no cutoff: recurse
        have halpha2beta : alpha2.blt beta = true :=
          EInt.blt_of_not_ble hbreak
        rw [if_neg hbreak]
        by_cases hsa : s.ble alpha = true
        · -- the child failed low: alpha does not move
          have hsVs : sV.ble s = true := hF2 hsa
          have hmx2a : mx2.ble alpha = true := by
            rw [hmx2]
            split
            · exact hsa
            · exact hmxA
          have ha2 : alpha2 = alpha := by
            have hnot : ¬ (alpha.blt mx2 = true) := by
              rw [EInt.blt_eq_false_of_ble hmx2a]
              exact Bool.false_ne_true
            rw [halpha2, if_neg hnot]
          have hmxF2mx2 : mxF2.ble mx2 = true := by
            rw [hmxF2]
            split
            · exact EInt.ble_trans hsVs hsmx2
            · exact EInt.ble_trans hmxF hmxAmx2
          rw [ha2]
          exact ih hfr alpha beta mx2 mxF2 hab hmx2a hmxF2mx2
        · -- the child raised alpha: continue with the exact child value
          have has : alpha.blt s = true := EInt.blt_of_not_ble hsa
          have hsbeta : s.blt beta = true :=
            EInt.blt_of_ble_of_blt (EInt.ble_trans hsmx2 hmx2alpha2) halpha2beta
          have hseq : s = sV := hF3 has hsbeta
          have hmx2s : mx2 = s := by
            rw [hmx2, if_pos (EInt.blt_of_ble_of_blt hmxA has)]
          have ha2s : alpha2 = s := by
            rw [halpha2, hmx2s, if_pos has]
          have hmxF2sV : mxF2 = sV := by
            rw [hmxF2, if_pos (EInt.blt_of_ble_of_blt (EInt.ble_trans hmxF hmxA)
              (hseq ▸ has))]
          rw [ha2s, hmx2s, hmxF2sV, ← hseq]
          have ih' := ih hfr s beta s s hsbeta (EInt.ble_refl s) (EInt.ble_refl s)
          have hsA : s.ble (negamaxLoop fA rest s beta s p) = true :=
            negamaxLoop_acc fA p rest s beta s
          refine ⟨?_, ih'.2.1, ?_⟩
          · intro h
            exact absurd (EInt.ble_trans hsA h) (EInt.not_ble_of_blt has)
          · intro _ h2
            rcases EInt.blt_or_ble s (negamaxLoop fA rest s beta s p) with hlt | hle
            · exact ih'.2.2 hlt h2
            · have hAs : negamaxLoop fA rest s beta s p = s := EInt.ble_antisymm hle hsA
              have hWA := ih'.1 hle
              have hAW : (negamaxLoop fA rest s beta s p).ble
                  (fullLoop fV rest s p) = true := by
                rw [hAs]
                exact fullLoop_acc fV p rest s
              exact EInt.ble_antisymm hAW hWA

/-- The fail-soft window invariant for `negamax` against the unpruned
`negamaxFull`, by induction on the depth. -/
theorem negamax_bounds : ∀ (d : ℕ) (t : GTree) (alpha beta : EInt) (p : Color),
    alpha.blt beta = true →
    ((negamax d t alpha beta p).ble alpha = true →
      (negamaxFull d t p).ble (negamax d t alpha beta p) = true) ∧
    (beta.ble (negamax d t alpha beta p) = true →
      (negamax d t alpha beta p).ble (negamaxFull d t p) = true) ∧
    (alpha.blt (negamax d t alpha beta p) = true →
      (negamax d t alpha beta p).blt beta = true →
      negamax d t alpha beta p = negamaxFull d t p) := by
  intro d
  induction d with
  | zero =>
      intro t alpha beta p _
      refine ⟨fun _ => ?_, fun _ => ?_, fun _ _ => ?_⟩ <;>
        simp only [negamax, negamaxFull] <;>
        first
          | exact EInt.ble_refl _
          | rfl
  | succ d ih =>
      intro t alpha beta p hab
      unfold negamax negamaxFull
      split
      · refine ⟨fun _ => ?_, fun _ => ?_, fun _ _ => ?_⟩ <;>
          first
            | exact EInt.ble_refl _
            | rfl
      · exact negamaxLoop_bounds (negamax d) (negamaxFull d) p
          (sortChildren t.children)
          (fun c _ a b hab2 => ih c.2 a b p hab2)
          alpha beta .negInf .negInf hab (EInt.negInf_ble alpha) (EInt.ble_refl _)

/-- C2: for every position, depth and perspective the alpha-beta-pruned
search at the full window returns exactly the value of the unpruned
full-width negamax over the same tree, the same leaf evaluation and the
same move ordering — pruning never changes the returned value. -/
theorem negamax_eq_negamaxFull (t : GTree) (d : ℕ) (p : Color) :
    negamax d t .negInf .posInf p = negamaxFull d t p := by
  have h := negamax_bounds d t .negInf .posInf p rfl
  rcases EInt.blt_or_ble .negInf (negamax d t .negInf .posInf p) with hlow | hlow
  · rcases EInt.blt_or_ble (negamax d t .negInf .posInf p) .posInf with hhigh | hhigh
    · exact h.2.2 hlow hhigh
    · have h1 := h.2.1 hhigh
      have h2 : negamax d t .negInf .posInf p = .posInf := EInt.posInf_ble hhigh
      rw [h2] at h1
      rw [h2, (EInt.posInf_ble h1).symm]
  · have h2 : negamax d t .negInf .posInf p = .negInf := EInt.ble_negInf hlow
    have h1 := h.1 (by rw [h2]; rfl)
    rw [h2] at h1
    rw [h2, (EInt.ble_negInf h1).symm]

end Chess64
